import Mathlib

/-!
Verification of the pwcheck analysis core and result projector.

The development shallowly embeds the two source modules:
* the core `analyze` pipeline (weakness classification, reuse grouping,
  summary computation), and
* the UI projector (`keyOf`, `riskLabel`, `riskScore`, `adjustWeakReasons`,
  `passwordByKey`, `reuseCountByKey`, `weakAdjustedByKey`, `allResults`,
  and the min-length input handler).

Modelling conventions:
* Strings are Lean `String`s; character-level work happens on `String.toList`
  (JS string length is measured in UTF-16 code units, here in code points;
  this difference is irrelevant to every stated property).
* A JS `Map` is an association list: `Map.set` keeps the position of an
  existing key and appends a fresh one, `Map.get` finds the unique binding.
* `Array.prototype.sort(cmp)` is required by ECMAScript to be a stable sort
  ordered by the sign of `cmp`; it is modelled as `List.insertionSort`
  with the relation `cmp a b ≤ 0`, which is a stable sort.
-/

namespace PwCheck

/-- A normalized credential record, as in the core's `Entry` type. -/
structure Entry where
  site : String
  username : String
  password : String
deriving DecidableEq, Repr

/-- A `(site, username)` member of a reuse group. -/
structure SiteUser where
  site : String
  username : String
deriving DecidableEq, Repr

/-- A weak-password finding for one entry, as in the core's `WeakFinding`. -/
structure WeakFinding where
  index : Nat
  site : String
  username : String
  reasons : List String
deriving DecidableEq, Repr

/-- A group of accounts sharing one exact password value. -/
structure ReuseGroup where
  count : Nat
  sites : List SiteUser
deriving DecidableEq, Repr

/-- The summary block of a report. -/
structure Summary where
  total : Nat
  weak : Nat
  reusedGroups : Nat
  reusedAccounts : Nat
deriving DecidableEq, Repr

/-- The core's output `Report`. -/
structure Report where
  summary : Summary
  weakFindings : List WeakFinding
  reuseGroups : List ReuseGroup
deriving DecidableEq, Repr

/-! ### Weakness classifier (core, `analyze` lines 56-77) -/

/-- `/[a-z]/.test(s)` -/
def hasLower (s : String) : Bool := s.toList.any Char.isLower

/-- `/[A-Z]/.test(s)` -/
def hasUpper (s : String) : Bool := s.toList.any Char.isUpper

/-- `/\d/.test(s)` -/
def hasDigit (s : String) : Bool := s.toList.any Char.isDigit

/-- `/[^A-Za-z0-9]/.test(s)` -/
def hasSymbol (s : String) : Bool := s.toList.any (fun c => !c.isAlphanum)

/-- `needle` occurs in `hay` as a contiguous substring. -/
def containsSub (hay needle : String) : Bool := decide (needle.toList <:+: hay.toList)

/-- Lower-casing, character by character (`String.prototype.toLowerCase`). -/
def toLowerStr (s : String) : String := ⟨s.toList.map Char.toLower⟩

/-- `/password|qwerty|1234/i.test(pw)`: case-insensitive substring test. -/
def commonPattern (pw : String) : Bool :=
  let l := toLowerStr pw
  containsSub l "password" || containsSub l "qwerty" || containsSub l "1234"

/-- The ordered reason list the classifier pushes for one password. -/
def reasonsFor (pw : String) : List String :=
  (if pw.length < 12 then ["Length < 12"] else [])
  ++ (if !hasLower pw then ["No lowercase"] else [])
  ++ (if !hasUpper pw then ["No uppercase"] else [])
  ++ (if !hasDigit pw then ["No number"] else [])
  ++ (if !hasSymbol pw then ["No symbol"] else [])
  ++ (if commonPattern pw then ["Common pattern"] else [])

/-- The weak findings of `analyze`: the source maps each entry together with
its position (`entries.map((e, idx) => ...)`) and drops the `null`s; this
helper carries the running index explicitly. -/
def weakFindingsFrom (idx : Nat) : List Entry → List WeakFinding
  | [] => []
  | e :: rest =>
    let reasons := reasonsFor e.password
    if reasons.isEmpty then weakFindingsFrom (idx + 1) rest
    else ⟨idx, e.site, e.username, reasons⟩ :: weakFindingsFrom (idx + 1) rest

/-- `weakFindings` as computed by `analyze`. -/
def weakFindingsOf (entries : List Entry) : List WeakFinding :=
  weakFindingsFrom 0 entries

/-! ### Reuse grouping (core, `analyze` lines 79-94)

The source accumulates a `Map<string, {site, username}[]>` keyed by the exact
password value; a JS `Map` preserves first-insertion order of keys and the
per-key list is appended in entry order. -/

/-- One `Map` step: append the entry's `(site, username)` to its password's
bucket, creating the bucket at the end when the key is new. -/
def addToIndex (m : List (String × List SiteUser)) (e : Entry) :
    List (String × List SiteUser) :=
  if m.any (fun kv => kv.1 == e.password) then
    m.map (fun kv => if kv.1 == e.password then (kv.1, kv.2 ++ [⟨e.site, e.username⟩]) else kv)
  else m ++ [(e.password, [⟨e.site, e.username⟩])]

/-- The password-to-members index built by the reuse-detection loop. -/
def passwordIndex (entries : List Entry) : List (String × List SiteUser) :=
  entries.foldl addToIndex []

/-- The comparator `(a, b) => b.count - a.count` passed to `sort`. -/
def groupCmp (a b : ReuseGroup) : Int := (b.count : Int) - (a.count : Int)

/-- The unsorted groups: one per key with at least two members. -/
def rawReuseGroups (entries : List Entry) : List ReuseGroup :=
  (passwordIndex entries).filterMap (fun kv =>
    if 2 ≤ kv.2.length then some ⟨kv.2.length, kv.2⟩ else none)

/-- `reuseGroups` as computed by `analyze`: the raw groups, stably sorted by
descending `count`. -/
def reuseGroupsOf (entries : List Entry) : List ReuseGroup :=
  (rawReuseGroups entries).insertionSort (fun a b => groupCmp a b ≤ 0)

/-- The core's `analyze`, assembling summary, weak findings and reuse groups. -/
def analyze (entries : List Entry) : Report :=
  let weakFindings := weakFindingsOf entries
  let reuseGroups := reuseGroupsOf entries
  { summary :=
      { total := entries.length
        weak := weakFindings.length
        reusedGroups := reuseGroups.length
        reusedAccounts := reuseGroups.foldl (fun acc g => acc + g.count) 0 }
    weakFindings := weakFindings
    reuseGroups := reuseGroups }

/-! ### Association-list model of the projector's JS `Map`s -/

/-- `Map.get`: the value at `k`, if present. -/
def getKey {α : Type} (m : List (String × α)) (k : String) : Option α :=
  (m.find? (fun kv => kv.1 == k)).map Prod.snd

/-- `Map.set`: update in place when the key exists, append when it is new. -/
def setKey {α : Type} (m : List (String × α)) (k : String) (v : α) :
    List (String × α) :=
  if m.any (fun kv => kv.1 == k) then
    m.map (fun kv => if kv.1 == k then (k, v) else kv)
  else m ++ [(k, v)]

/-! ### Projector definitions (UI module) -/

/-- `keyOf(site, username)`: the composite join key. -/
def keyOf (site username : String) : String := site ++ "||" ++ username

/-- Host component of an absolute URL string. This stands in for the browser
`URL` API (an external collaborator): everything after the scheme up to the
first delimiter, lower-cased. -/
def hostOf (site : String) : String :=
  let l := site.toList
  let lower := l.map Char.toLower
  let rest := if List.isPrefixOf "http://".toList lower then l.drop 7 else l.drop 8
  ⟨(rest.takeWhile (fun c => !(c == '/' || c == ':' || c == '?' || c == '#'))).map Char.toLower⟩

/-- `asDomainLabel`: the host of an absolute http(s) URL, else the site
verbatim (falling back to the site when the host is empty). -/
def asDomainLabel (site : String) : String :=
  let lower := (site.toList.map Char.toLower)
  if List.isPrefixOf "http://".toList lower || List.isPrefixOf "https://".toList lower then
    let host := hostOf site
    if host == "" then site else host
  else site

/-- The risk label decision chain (`riskLabel` in the UI module). -/
inductive Risk where
  | LOW
  | MEDIUM
  | HIGH
deriving DecidableEq, Repr

/-- `riskLabel(reuseCount, isWeak)`: first matching branch wins. -/
def riskLabel (reuseCount : Nat) (isWeak : Bool) : Risk :=
  if 10 ≤ reuseCount ∧ isWeak = true then .HIGH
  else if 2 ≤ reuseCount ∧ isWeak = true then .MEDIUM
  else if 10 ≤ reuseCount then .MEDIUM
  else if isWeak = true then .MEDIUM
  else .LOW

/-- `riskScore(reuseCount, isWeak) = reuseCount * 10 + (isWeak ? 15 : 0)`. -/
def riskScore (reuseCount : Nat) (isWeak : Bool) : Nat :=
  reuseCount * 10 + (if isWeak then 15 else 0)

/-- `r.toLowerCase().startsWith("length")`: is `r` a length-rule reason? -/
def isLengthReason (r : String) : Bool :=
  List.isPrefixOf "length".toList (r.toList.map Char.toLower)

/-- `adjustWeakReasons(coreReasons, password, minLength)`: drop every length
reason from the cached baseline, then, when the password is present, nonempty
and shorter than the live `minLength`, put a freshly worded length reason in
front. `password` is `none` when the key has no entry in the password lookup
(JS `undefined`). -/
def adjustWeakReasons (coreReasons : List String) (password : Option String)
    (minLength : Nat) : List String :=
  let out := coreReasons.filter (fun r => !isLengthReason r)
  match password with
  | some pw =>
    if 0 < pw.length ∧ pw.length < minLength then ("Length < " ++ toString minLength) :: out
    else out
  | none => out

/-- `passwordByKey`: key-to-password lookup over the entries (later entries
overwrite earlier ones sharing the key). -/
def passwordByKey (entries : List Entry) : List (String × String) :=
  entries.foldl (fun m e => setKey m (keyOf e.site e.username) e.password) []

/-- `reuseCountByKey`: records each group member's key with the group count,
skipping the degenerate key `"||"`. -/
def reuseCountByKey (report : Report) : List (String × Nat) :=
  report.reuseGroups.foldl (fun m g =>
    g.sites.foldl (fun m' s =>
      let k := keyOf s.site s.username
      if k == "||" then m' else setKey m' k g.count) m) []

/-- `weakAdjustedByKey`: the policy-adjusted weak-reasons lookup, built from
the report's weak findings; a key whose adjusted reason list is empty is not
inserted. -/
def weakAdjustedByKey (entries : List Entry) (report : Report) (minLength : Nat) :
    List (String × List String) :=
  report.weakFindings.foldl (fun m w =>
    let k := keyOf w.site w.username
    let pw := getKey (passwordByKey entries) k
    let reasons := adjustWeakReasons w.reasons pw minLength
    if reasons.isEmpty then m else setKey m k reasons) []

/-- A raw CSV row as kept by the UI (used only to re-derive a row's URL). -/
structure Row where
  name : String
  url : String
  username : String
  password : String
  note : String
deriving DecidableEq, Repr

/-- `rowBySite`: the first raw row whose display site matches. -/
def rowBySite (rows : List Row) (site : String) : Option Row :=
  rows.find? (fun r => (if r.name == "" then r.url else r.name) == site)

/-- `r?.url || undefined`: the row's URL, with the empty string demoted. -/
def urlOf (rows : List Row) (site : String) : Option String :=
  match rowBySite rows site with
  | some r => if r.url == "" then none else some r.url
  | none => none

/-- The three issue filters of the projector. -/
inductive IssueMode where
  | all
  | reuse
  | weak
deriving DecidableEq, Repr

/-- The three sort modes of the projector. -/
inductive SortMode where
  | risk
  | domain
  | reuseCount
deriving DecidableEq, Repr

/-- `String.prototype.trim`. -/
def trimStr (s : String) : String :=
  ⟨((s.toList.dropWhile Char.isWhitespace).reverse.dropWhile Char.isWhitespace).reverse⟩

/-- The free-text search filter of the `allResults` loop: with a nonempty
(trimmed, lower-cased) query, keep rows whose domain/site/username/URL
concatenation contains it. -/
def queryKeep (rows : List Row) (query : String) (e : Entry) : Bool :=
  let q := toLowerStr (trimStr query)
  if q == "" then true
  else
    let url := urlOf rows e.site
    let hay := toLowerStr
      (asDomainLabel e.site ++ " " ++ e.site ++ " " ++ e.username ++ " " ++ url.getD "")
    containsSub hay q

/-- A projected result row. -/
structure ResultRow where
  key : String
  site : String
  domain : String
  username : String
  url : Option String
  reuseCount : Nat
  weakReasons : List String
  isWeak : Bool
  risk : Risk
deriving DecidableEq, Repr

/-- The `ResultRow` the `allResults` loop assembles for one entry (the loop's
early exits are the guards in `allResults` below; every field is a pure
function of the entry and the two lookups, so hoisting them is sound). -/
def candidateRow (rows : List Row) (rcbk : List (String × Nat))
    (wabk : List (String × List String)) (e : Entry) : ResultRow :=
  let k := keyOf e.site e.username
  let reuseCount := (getKey rcbk k).getD 0
  let weakReasons := (getKey wabk k).getD []
  let isWeak := !weakReasons.isEmpty
  { key := k
    site := e.site
    domain := asDomainLabel e.site
    username := e.username
    url := urlOf rows e.site
    reuseCount := reuseCount
    weakReasons := weakReasons
    isWeak := isWeak
    risk := riskLabel reuseCount isWeak }

/-- `a.domain.localeCompare(b.domain)`, modelled as code-point comparison
(`localeCompare` itself is locale-dependent and external to the core). -/
def stringCmp (a b : String) : Int :=
  if a < b then -1 else if b < a then 1 else 0

/-- The comparator handed to `results.sort` for each sort mode. -/
def rowCmp (sortMode : SortMode) (a b : ResultRow) : Int :=
  match sortMode with
  | .domain => stringCmp a.domain b.domain
  | .reuseCount => (b.reuseCount : Int) - (a.reuseCount : Int)
  | .risk => (riskScore b.reuseCount b.isWeak : Int) - (riskScore a.reuseCount a.isWeak : Int)

/-- `allResults`: build a candidate row per entry, drop the ones failing the
issue-mode and search filters, then stably sort with the mode's comparator. -/
def allResults (entries : List Entry) (rows : List Row) (report : Report)
    (minLength : Nat) (issueMode : IssueMode) (sortMode : SortMode)
    (query : String) : List ResultRow :=
  let rcbk := reuseCountByKey report
  let wabk := weakAdjustedByKey entries report minLength
  let results := entries.filterMap (fun e =>
    let r := candidateRow rows rcbk wabk e
    if issueMode = IssueMode.reuse ∧ r.reuseCount < 2 then none
    else if issueMode = IssueMode.weak ∧ r.isWeak = false then none
    else if queryKeep rows query e = false then none
    else some r)
  results.insertionSort (fun a b => rowCmp sortMode a b ≤ 0)

/-- The min-length input handler `setMinLength(Number(e.target.value || 12))`:
a number input yields either an empty value (`none`, for cleared or
unparseable text) or the typed number; only the empty value is defaulted
to 12, the typed number is passed through unchanged. -/
def minLengthFromInput (value : Option Nat) : Nat :=
  match value with
  | none => 12
  | some n => n

/-! ### Lookup lemmas for the association-list `Map` model -/

theorem getKey_cons {α : Type} (kv : String × α) (m : List (String × α)) (k : String) :
    getKey (kv :: m) k = if kv.1 == k then some kv.2 else getKey m k := by
  cases h : kv.1 == k <;> simp [getKey, List.find?, h]

theorem getKey_map_update {α : Type} (k : String) (v : α) :
    ∀ m : List (String × α), m.any (fun kv => kv.1 == k) = true →
      getKey (m.map (fun kv => if kv.1 == k then (k, v) else kv)) k = some v
  | [], h => by simp at h
  | kv :: tl, h => by
    by_cases hk : kv.1 = k
    · simp [List.map_cons, getKey_cons, hk]
    · have htl : tl.any (fun kv => kv.1 == k) = true := by
        simpa [List.any_cons, hk] using h
      simpa [List.map_cons, getKey_cons, hk] using getKey_map_update k v tl htl

theorem getKey_setKey_self {α : Type} (m : List (String × α)) (k : String) (v : α) :
    getKey (setKey m k v) k = some v := by
  unfold setKey
  by_cases h : m.any (fun kv => kv.1 == k) = true
  · simpa [h] using getKey_map_update k v m h
  · have hnone : m.find? (fun kv => kv.1 == k) = none := by
      rw [List.find?_eq_none]
      intro x hx hpx
      exact h (List.any_eq_true.mpr ⟨x, hx, hpx⟩)
    simp [h, getKey, List.find?_append, hnone, List.find?]

theorem getKey_map_update_ne {α : Type} (k k' : String) (v : α) (hne : k' ≠ k) :
    ∀ m : List (String × α),
      getKey (m.map (fun kv => if kv.1 == k' then (k', v) else kv)) k = getKey m k
  | [] => rfl
  | kv :: tl => by
    by_cases hk : kv.1 = k'
    · simpa [List.map_cons, getKey_cons, hk, hne] using getKey_map_update_ne k k' v hne tl
    · by_cases hkk : kv.1 = k
      · simp [List.map_cons, getKey_cons, hk, hkk, hne.symm]
      · simpa [List.map_cons, getKey_cons, hk, hkk] using getKey_map_update_ne k k' v hne tl

theorem getKey_setKey_ne {α : Type} (m : List (String × α)) (k k' : String) (v : α)
    (hne : k' ≠ k) : getKey (setKey m k' v) k = getKey m k := by
  unfold setKey
  by_cases h : m.any (fun kv => kv.1 == k') = true
  · simpa [h] using getKey_map_update_ne k k' v hne m
  · have hk2 : (k' == k) = false := by simpa using hne
    simp [h, getKey, List.find?_append, List.find?, hk2]

/-- Last-write-wins characterization of a conditional `Map.set` fold: the
lookup returns the value of the last list element that was both inserted and
keyed by `k`. -/
theorem getKey_foldl_setIf {α β : Type} (key : β → String) (val : β → α) (cond : β → Bool)
    (k : String) :
    ∀ (l : List β) (init : List (String × α)),
      getKey (l.foldl (fun m b => if cond b then setKey m (key b) (val b) else m) init) k =
        match (l.filter (fun b => cond b && (key b == k))).getLast? with
        | some b => some (val b)
        | none => getKey init k
  | [], init => rfl
  | b :: tl, init => by
    rw [List.foldl_cons, getKey_foldl_setIf key val cond k tl]
    by_cases hpb : (cond b && (key b == k)) = true
    · have hcb : cond b = true := (Bool.and_eq_true_iff.mp hpb).1
      have hkb : key b = k := by simpa using (Bool.and_eq_true_iff.mp hpb).2
      rcases htl : tl.filter (fun x => cond x && (key x == k)) with _ | ⟨c, cs⟩
      · subst hkb
        simp [List.filter_cons, hpb, htl, hcb, getKey_setKey_self]
      · obtain ⟨d, hd⟩ : ∃ d, (c :: cs).getLast? = some d := by
          cases hgl : (c :: cs).getLast? with
          | none => exact absurd (List.getLast?_eq_none_iff.mp hgl) (by simp)
          | some d => exact ⟨d, rfl⟩
        simp [List.filter_cons, hpb, htl, List.getLast?_cons_cons, hd]
    · rcases htl : tl.filter (fun x => cond x && (key x == k)) with _ | ⟨c, cs⟩
      · simp only [List.filter_cons, hpb, if_neg, Bool.not_eq_true, htl]
        by_cases hcb : cond b = true
        · have hkb : key b ≠ k := by
            intro h
            exact hpb (by simp [hcb, h])
          simp [htl, hcb, getKey_setKey_ne init k (key b) (val b) hkb]
        · simp [htl, hcb]
      · obtain ⟨d, hd⟩ : ∃ d, (c :: cs).getLast? = some d := by
          cases hgl : (c :: cs).getLast? with
          | none => exact absurd (List.getLast?_eq_none_iff.mp hgl) (by simp)
          | some d => exact ⟨d, rfl⟩
        simp [List.filter_cons, hpb, htl, hd]

/-- `passwordByKey` returns the password of the LAST entry keyed by `k`
(later entries overwrite earlier ones). -/
theorem getKey_passwordByKey (entries : List Entry) (k : String) :
    getKey (passwordByKey entries) k =
      ((entries.filter (fun e => keyOf e.site e.username == k)).getLast?).map
        (fun e => e.password) := by
  have h := getKey_foldl_setIf (fun e : Entry => keyOf e.site e.username)
      (fun e => e.password) (fun _ => true) k entries []
  unfold passwordByKey
  rw [show (fun (m : List (String × String)) (e : Entry) =>
        setKey m (keyOf e.site e.username) e.password)
      = (fun (m : List (String × String)) (e : Entry) =>
        if (fun _ : Entry => true) e then setKey m (keyOf e.site e.username) e.password else m)
      from rfl]
  rw [h]
  rcases (entries.filter (fun e => keyOf e.site e.username == k)).getLast? with _ | e <;> rfl

/-- The adjusted reason list the `weakAdjustedByKey` fold computes for one
weak finding. -/
def adjustOf (entries : List Entry) (minLength : Nat) (w : WeakFinding) : List String :=
  adjustWeakReasons w.reasons (getKey (passwordByKey entries) (keyOf w.site w.username)) minLength

/-- `weakAdjustedByKey` lookup: the adjusted reasons of the LAST weak finding
keyed by `k` whose adjusted reason list is nonempty. -/
theorem getKey_weakAdjustedByKey (entries : List Entry) (report : Report) (minLength : Nat)
    (k : String) :
    getKey (weakAdjustedByKey entries report minLength) k =
      ((report.weakFindings.filter (fun w =>
          !(adjustOf entries minLength w).isEmpty && (keyOf w.site w.username == k))).getLast?).map
        (adjustOf entries minLength) := by
  have hfun : ∀ (m : List (String × List String)) (w : WeakFinding),
      (let k' := keyOf w.site w.username
       let pw := getKey (passwordByKey entries) k'
       let reasons := adjustWeakReasons w.reasons pw minLength
       if reasons.isEmpty then m else setKey m k' reasons)
      = (if !(adjustOf entries minLength w).isEmpty then
          setKey m (keyOf w.site w.username) (adjustOf entries minLength w) else m) := by
    intro m w
    by_cases h : (adjustOf entries minLength w).isEmpty = true <;>
      simp only [adjustOf] at h ⊢ <;> simp [h]
  unfold weakAdjustedByKey
  rw [List.foldl_ext _ _ _ (fun m w _ => hfun m w)]
  have h := getKey_foldl_setIf (fun w : WeakFinding => keyOf w.site w.username)
      (adjustOf entries minLength) (fun w => !(adjustOf entries minLength w).isEmpty)
      k report.weakFindings []
  rw [h]
  rcases (report.weakFindings.filter (fun w =>
      !(adjustOf entries minLength w).isEmpty && (keyOf w.site w.username == k))).getLast?
    with _ | w <;> rfl

/-- In a list whose keys are pairwise distinct, filtering by a member's key
yields exactly that member. -/
theorem filter_key_of_nodup {β : Type} (keyFn : β → String) :
    ∀ (l : List β) (e : β), e ∈ l → (l.map keyFn).Nodup →
      l.filter (fun x => keyFn x == keyFn e) = [e]
  | [], e, he, _ => absurd he (List.not_mem_nil e)
  | a :: tl, e, he, hnd => by
    rw [List.map_cons, List.nodup_cons] at hnd
    obtain ⟨hna, hndtl⟩ := hnd
    rcases List.mem_cons.mp he with he | he
    · subst he
      simp [List.filter_cons]
      intro x hx hxa
      exact hna (hxa ▸ List.mem_map_of_mem keyFn hx)
    · have hne : keyFn a ≠ keyFn e := by
        intro hh
        exact hna (hh ▸ List.mem_map_of_mem keyFn he)
      simp [List.filter_cons, hne, filter_key_of_nodup keyFn tl e he hndtl]

/-! ### Lemmas about the weak-findings pass -/

/-- Forgetting indices, the weak findings are exactly the entries with a
nonempty reason list, in input order, tagged with their reasons. -/
theorem weakFindingsFrom_map_data :
    ∀ (s : Nat) (entries : List Entry),
      (weakFindingsFrom s entries).map (fun w => (w.site, w.username, w.reasons)) =
        (entries.filter (fun e => !(reasonsFor e.password).isEmpty)).map
          (fun e => (e.site, e.username, reasonsFor e.password))
  | _, [] => rfl
  | s, e :: rest => by
    by_cases h : (reasonsFor e.password).isEmpty = true
    · simp [weakFindingsFrom, List.filter_cons, h, weakFindingsFrom_map_data (s + 1) rest]
    · simp [weakFindingsFrom, List.filter_cons, h, weakFindingsFrom_map_data (s + 1) rest]

theorem mem_weakFindingsFrom_ge :
    ∀ (s : Nat) (entries : List Entry) (w : WeakFinding),
      w ∈ weakFindingsFrom s entries → s ≤ w.index
  | _, [], _, h => by simp [weakFindingsFrom] at h
  | s, e :: rest, w, h => by
    simp only [weakFindingsFrom] at h
    by_cases hr : (reasonsFor e.password).isEmpty = true
    · rw [if_pos hr] at h
      exact Nat.le_of_succ_le (mem_weakFindingsFrom_ge (s + 1) rest w h)
    · rw [if_neg hr] at h
      rcases List.mem_cons.mp h with h | h
      · subst h
        exact Nat.le_refl s
      · exact Nat.le_of_succ_le (mem_weakFindingsFrom_ge (s + 1) rest w h)

/-- Weak findings carry strictly increasing indices. -/
theorem weakFindingsFrom_pairwise :
    ∀ (s : Nat) (entries : List Entry),
      (weakFindingsFrom s entries).Pairwise (fun a b => a.index < b.index)
  | _, [] => List.Pairwise.nil
  | s, e :: rest => by
    simp only [weakFindingsFrom]
    by_cases hr : (reasonsFor e.password).isEmpty = true
    · simpa [hr] using weakFindingsFrom_pairwise (s + 1) rest
    · rw [if_neg hr]
      refine List.Pairwise.cons ?_ (weakFindingsFrom_pairwise (s + 1) rest)
      intro w hw
      have := mem_weakFindingsFrom_ge (s + 1) rest w hw
      show s < w.index
      omega

/-- Every weak finding comes from the entry at its index. -/
theorem mem_weakFindingsFrom_spec :
    ∀ (s : Nat) (entries : List Entry) (w : WeakFinding), w ∈ weakFindingsFrom s entries →
      ∃ i e, w.index = s + i ∧ entries[i]? = some e ∧ w.site = e.site ∧
        w.username = e.username ∧ w.reasons = reasonsFor e.password
  | _, [], _, h => by simp [weakFindingsFrom] at h
  | s, e :: rest, w, h => by
    simp only [weakFindingsFrom] at h
    by_cases hr : (reasonsFor e.password).isEmpty = true
    · rw [if_pos hr] at h
      obtain ⟨i, e', hi, hget, h1, h2, h3⟩ := mem_weakFindingsFrom_spec (s + 1) rest w h
      exact ⟨i + 1, e', by omega, by simpa using hget, h1, h2, h3⟩
    · rw [if_neg hr] at h
      rcases List.mem_cons.mp h with h | h
      · subst h
        exact ⟨0, e, by simp, by simp, rfl, rfl, rfl⟩
      · obtain ⟨i, e', hi, hget, h1, h2, h3⟩ := mem_weakFindingsFrom_spec (s + 1) rest w h
        exact ⟨i + 1, e', by omega, by simpa using hget, h1, h2, h3⟩

/-- A weak finding never carries an empty reason list. -/
theorem weakFindingsFrom_reasons_ne :
    ∀ (s : Nat) (entries : List Entry) (w : WeakFinding),
      w ∈ weakFindingsFrom s entries → w.reasons ≠ []
  | _, [], _, h => by simp [weakFindingsFrom] at h
  | s, e :: rest, w, h => by
    simp only [weakFindingsFrom] at h
    by_cases hr : (reasonsFor e.password).isEmpty = true
    · rw [if_pos hr] at h
      exact weakFindingsFrom_reasons_ne (s + 1) rest w h
    · rw [if_neg hr] at h
      rcases List.mem_cons.mp h with h | h
      · subst h
        simpa [List.isEmpty_iff] using hr
      · exact weakFindingsFrom_reasons_ne (s + 1) rest w h

/-- `reduce((acc, g) => acc + g.count, 0)` sums the group counts. -/
theorem foldl_add_count :
    ∀ (l : List ReuseGroup) (n : Nat),
      l.foldl (fun acc g => acc + g.count) n = n + (l.map (fun g => g.count)).sum
  | [], n => by simp
  | g :: tl, n => by
    rw [List.foldl_cons, foldl_add_count tl (n + g.count)]
    simp [List.sum_cons]
    omega

/-! ### Spec-side description of the reuse index (claim C5) -/

/-- The distinct password values of the entries, in first-seen order. -/
def keysInOrder (entries : List Entry) : List String :=
  entries.foldl (fun acc e => if e.password ∈ acc then acc else acc ++ [e.password]) []

/-- The `(site, username)` pairs of the entries carrying password `p`, in
input order. -/
def membersOf (entries : List Entry) (p : String) : List SiteUser :=
  (entries.filter (fun e => e.password == p)).map (fun e => ⟨e.site, e.username⟩)

/-- The reuse groups as the spec words them: one group per distinct password
value with at least two occurrences, members in first-seen order, listed in
first-seen key order (the order before sorting by count). -/
def specReuseGroups (entries : List Entry) : List ReuseGroup :=
  (keysInOrder entries).filterMap (fun p =>
    if 2 ≤ (membersOf entries p).length then
      some ⟨(membersOf entries p).length, membersOf entries p⟩ else none)

theorem mem_keysFold :
    ∀ (l : List Entry) (acc : List String) (p : String),
      (p ∈ l.foldl (fun acc e => if e.password ∈ acc then acc else acc ++ [e.password]) acc ↔
        p ∈ acc ∨ p ∈ l.map (fun e => e.password))
  | [], acc, p => by simp
  | e :: tl, acc, p => by
    rw [List.foldl_cons, mem_keysFold tl]
    by_cases h : e.password ∈ acc
    · by_cases hp : p = e.password <;> simp [h, hp]
    · simp [h, List.mem_append, or_assoc]

theorem membersOf_eq_nil (entries : List Entry) (p : String)
    (h : p ∉ keysInOrder entries) : membersOf entries p = [] := by
  have hnp : p ∉ entries.map (fun e => e.password) := by
    intro hmem
    exact h ((mem_keysFold entries [] p).mpr (Or.inr hmem))
  rw [membersOf]
  have : entries.filter (fun e => e.password == p) = [] := by
    rw [List.filter_eq_nil_iff]
    intro e he hbeq
    exact hnp (by
      have : e.password = p := by simpa using hbeq
      exact this ▸ List.mem_map_of_mem (fun e => e.password) he)
  rw [this, List.map_nil]

theorem membersOf_append_one (l : List Entry) (e : Entry) (p : String) :
    membersOf (l ++ [e]) p =
      membersOf l p ++ (if e.password == p then [⟨e.site, e.username⟩] else []) := by
  by_cases h : e.password = p <;>
    simp [membersOf, List.filter_append, List.filter_cons, h]

theorem keysInOrder_append_one (l : List Entry) (e : Entry) :
    keysInOrder (l ++ [e]) =
      if e.password ∈ keysInOrder l then keysInOrder l else keysInOrder l ++ [e.password] := by
  rw [keysInOrder, List.foldl_append, List.foldl_cons, List.foldl_nil, keysInOrder]

/-- The reuse-detection `Map` is, as an association list, exactly the
first-seen-ordered distinct passwords paired with their members in entry
order. -/
theorem passwordIndex_eq (entries : List Entry) :
    passwordIndex entries = (keysInOrder entries).map (fun p => (p, membersOf entries p)) := by
  induction entries using List.reverseRecOn with
  | nil => rfl
  | append_singleton l e ih =>
    have hstep : passwordIndex (l ++ [e]) = addToIndex (passwordIndex l) e := by
      rw [passwordIndex, List.foldl_append, List.foldl_cons, List.foldl_nil, passwordIndex]
    rw [hstep, ih, keysInOrder_append_one]
    by_cases hmem : e.password ∈ keysInOrder l
    · have hany : ((keysInOrder l).map (fun p => (p, membersOf l p))).any
          (fun kv => kv.1 == e.password) = true :=
        List.any_eq_true.mpr ⟨(e.password, membersOf l e.password),
          List.mem_map_of_mem _ hmem, by simp⟩
      rw [addToIndex, if_pos hany, if_pos hmem, List.map_map]
      refine List.map_congr_left (fun p hp => ?_)
      by_cases hpe : p = e.password
      · subst hpe
        simp [Function.comp, membersOf_append_one]
      · have hpe2 : ¬ e.password = p := fun h => hpe h.symm
        simp [Function.comp, membersOf_append_one, hpe, hpe2]
    · have hany : ((keysInOrder l).map (fun p => (p, membersOf l p))).any
          (fun kv => kv.1 == e.password) = false := by
        rw [List.any_eq_false]
        intro kv hkv hbeq
        obtain ⟨p, hp, rfl⟩ := List.mem_map.mp hkv
        exact hmem ((by simpa using hbeq : p = e.password) ▸ hp)
      rw [addToIndex, if_neg (by simp [hany]), if_neg hmem, List.map_append]
      congr 1
      · refine List.map_congr_left (fun p hp => ?_)
        have hpe : ¬ e.password = p := fun hh => hmem (hh ▸ hp)
        simp [membersOf_append_one, hpe]
      · rw [List.map_cons, List.map_nil, membersOf_append_one,
          membersOf_eq_nil l e.password hmem]
        simp

/-- The raw (unsorted) reuse groups match the spec-side description. -/
theorem rawReuseGroups_eq (entries : List Entry) :
    rawReuseGroups entries = specReuseGroups entries := by
  rw [rawReuseGroups, passwordIndex_eq, List.filterMap_map]
  rfl

/-! ### Stability of the sort model -/

/-- Filtering a stably sorted list by a band of mutually related elements
(e.g. an equal-score band) gives the same list as filtering the input: the
sort neither reorders nor disturbs elements inside one band. -/
theorem insertionSort_filter_band {α : Type} (r : α → α → Prop) [DecidableRel r]
    (p : α → Bool) (l : List α) (hp : ∀ x y, p x = true → p y = true → r x y) :
    (l.insertionSort r).filter p = l.filter p := by
  have hpair : (l.filter p).Pairwise r :=
    List.pairwise_of_forall_mem_list (fun a ha b hb =>
      hp a b (List.of_mem_filter ha) (List.of_mem_filter hb))
  have hsub : List.Sublist (l.filter p) (l.insertionSort r) :=
    List.sublist_insertionSort hpair (List.filter_sublist l)
  have hsub2 : List.Sublist ((l.filter p).filter p) ((l.insertionSort r).filter p) :=
    hsub.filter p
  rw [List.filter_filter] at hsub2
  simp only [Bool.and_self] at hsub2
  have hlen : ((l.insertionSort r).filter p).length = (l.filter p).length :=
    ((List.perm_insertionSort r l).filter p).length_eq
  exact (hsub2.eq_of_length hlen.symm).symm

/-- A guarded `filterMap` is a filter followed by a map. -/
theorem filterMap_guard {α β : Type} (f : β → α) (p : β → Bool) :
    ∀ l : List β,
      l.filterMap (fun b => if p b then some (f b) else none) = (l.filter p).map f
  | [] => rfl
  | b :: tl => by
    by_cases h : p b = true <;>
      simp [List.filterMap_cons, List.filter_cons, h, filterMap_guard f p tl]

/-! ## Claim theorems -/

/-- Claim C9: `analyze` applied to the empty entry sequence returns the
all-zero summary with empty finding and group sequences; being a total
function of its input, it cannot raise. -/
theorem analyze_nil :
    analyze [] =
      { summary := { total := 0, weak := 0, reusedGroups := 0, reusedAccounts := 0 },
        weakFindings := [], reuseGroups := [] } := rfl

/-- Claim C1: for every entry sequence the summary is consistent with the
body of the report: `total` counts the input entries, `weak` the weak
findings, `reusedGroups` the reuse groups, and `reusedAccounts` is the sum
of `g.count` over the reuse groups. -/
theorem analyze_summary_consistent (entries : List Entry) :
    (analyze entries).summary.total = entries.length
    ∧ (analyze entries).summary.weak = (analyze entries).weakFindings.length
    ∧ (analyze entries).summary.reusedGroups = (analyze entries).reuseGroups.length
    ∧ (analyze entries).summary.reusedAccounts =
        ((analyze entries).reuseGroups.map (fun g => g.count)).sum :=
  ⟨rfl, rfl, rfl, by simpa using foldl_add_count (reuseGroupsOf entries) 0⟩

/-- Claim C3: the risk scorer computes
`score = reuseCount * 10 + (isWeak ? 15 : 0)`, and the label follows the
decision table with first-match-wins: reuse ≥ 10 and weak gives HIGH;
reuse ≥ 2 (not caught by the first row) and weak gives MEDIUM; reuse ≥ 10
without weakness gives MEDIUM; weak with reuse < 2 gives MEDIUM; otherwise
(not weak, reuse < 10) LOW. The six clauses cover every pair, so each pair
maps to exactly one label. -/
theorem riskScorer_table (n : Nat) (b : Bool) :
    riskScore n b = n * 10 + (if b then 15 else 0)
    ∧ (10 ≤ n → b = true → riskLabel n b = Risk.HIGH)
    ∧ (2 ≤ n → n < 10 → b = true → riskLabel n b = Risk.MEDIUM)
    ∧ (10 ≤ n → b = false → riskLabel n b = Risk.MEDIUM)
    ∧ (n < 2 → b = true → riskLabel n b = Risk.MEDIUM)
    ∧ (b = false → n < 10 → riskLabel n b = Risk.LOW) := by
  refine ⟨rfl, ?_, ?_, ?_, ?_, ?_⟩
  · intro h hb
    subst hb
    simp [riskLabel, h]
  · intro h2 h10 hb
    subst hb
    have hn : ¬ 10 ≤ n := by omega
    simp [riskLabel, hn, h2]
  · intro h hb
    subst hb
    simp [riskLabel, h]
  · intro h hb
    subst hb
    have h10 : ¬ 10 ≤ n := by omega
    have h2 : ¬ 2 ≤ n := by omega
    simp [riskLabel, h10, h2]
  · intro hb h
    subst hb
    have h10 : ¬ 10 ≤ n := by omega
    simp [riskLabel, h10]

/-- Witness for C3 at the spec's five sample points. -/
theorem riskScorer_table_witness :
    riskLabel 10 true = Risk.HIGH ∧ riskLabel 3 true = Risk.MEDIUM
    ∧ riskLabel 10 false = Risk.MEDIUM ∧ riskLabel 0 true = Risk.MEDIUM
    ∧ riskLabel 0 false = Risk.LOW :=
  ⟨(riskScorer_table 10 true).2.1 (by decide) rfl,
   (riskScorer_table 3 true).2.2.1 (by decide) (by decide) rfl,
   (riskScorer_table 10 false).2.2.2.1 (by decide) rfl,
   (riskScorer_table 0 true).2.2.2.2.1 (by decide) rfl,
   (riskScorer_table 0 false).2.2.2.2.2 rfl (by decide)⟩

/-- Claim C8: the key-to-password lookup used for re-joining is
last-write-wins: its value at a key is the password of the last entry with
that key; in particular, when two entries share a key (and no later entry
uses it), the later entry's password is stored. -/
theorem passwordByKey_last_wins (entries : List Entry) (k : String) :
    (getKey (passwordByKey entries) k =
      ((entries.filter (fun e => keyOf e.site e.username == k)).getLast?).map
        (fun e => e.password))
    ∧ ∀ (pre mid post : List Entry) (e₁ e₂ : Entry),
        entries = pre ++ (e₁ :: mid) ++ (e₂ :: post) →
        keyOf e₁.site e₁.username = k → keyOf e₂.site e₂.username = k →
        (∀ x ∈ post, keyOf x.site x.username ≠ k) →
        getKey (passwordByKey entries) k = some e₂.password := by
  refine ⟨getKey_passwordByKey entries k, ?_⟩
  intro pre mid post e₁ e₂ hsplit hk1 hk2 hpost
  subst hsplit
  rw [getKey_passwordByKey]
  have hpostnil : post.filter (fun e => keyOf e.site e.username == k) = [] := by
    rw [List.filter_eq_nil_iff]
    intro x hx hbeq
    exact hpost x hx (by simpa using hbeq)
  simp [List.filter_append, List.filter_cons, hk1, hk2, hpostnil]
  refine ⟨e₂, ?_, rfl⟩
  rw [← List.cons_append, List.getLast?_concat]

/-- Witness for C8's duplicate-key clause: two entries with the same
`(site, username)` but different passwords; the lookup returns the later
password. -/
theorem passwordByKey_last_wins_witness :
    getKey (passwordByKey [⟨"s", "u", "first"⟩, ⟨"s", "u", "second"⟩]) (keyOf "s" "u")
      = some "second" :=
  (passwordByKey_last_wins [⟨"s", "u", "first"⟩, ⟨"s", "u", "second"⟩] (keyOf "s" "u")).2
    [] [] [] ⟨"s", "u", "first"⟩ ⟨"s", "u", "second"⟩ rfl rfl rfl
    (by intro x hx; simp at hx)

/-- The classifier's rule table, in the contract's fixed order: each label
paired with its violation test. -/
def ruleChecks : List (String × (String → Bool)) :=
  [("Length < 12", fun pw => decide (pw.length < 12)),
   ("No lowercase", fun pw => !hasLower pw),
   ("No uppercase", fun pw => !hasUpper pw),
   ("No number", fun pw => !hasDigit pw),
   ("No symbol", fun pw => !hasSymbol pw),
   ("Common pattern", fun pw => commonPattern pw)]

/-- Claim C4: for every password the classifier's reason list is exactly the
violated rules of the fixed table, in table order; an entry whose reason list
is empty produces no `WeakFinding` (no finding carries its index); and the
empty password violates the five length/character-class rules but not the
common-pattern rule. -/
theorem classifier_exact_reasons (pw : String) (entries : List Entry) :
    reasonsFor pw = (ruleChecks.filter (fun rc => rc.2 pw)).map (fun rc => rc.1)
    ∧ (∀ (i : Nat) (e : Entry), entries[i]? = some e → reasonsFor e.password = [] →
        ((analyze entries).weakFindings.all (fun w => w.index != i)) = true)
    ∧ reasonsFor "" = ["Length < 12", "No lowercase", "No uppercase", "No number", "No symbol"] := by
  refine ⟨?_, ?_, by decide⟩
  · by_cases h1 : pw.length < 12 <;>
    by_cases h2 : hasLower pw <;>
    by_cases h3 : hasUpper pw <;>
    by_cases h4 : hasDigit pw <;>
    by_cases h5 : hasSymbol pw <;>
    by_cases h6 : commonPattern pw <;>
      simp [reasonsFor, ruleChecks, h1, h2, h3, h4, h5, h6]
  · intro i e hget hre
    rw [List.all_eq_true]
    intro w hw
    obtain ⟨j, e', hj, hget', h1, h2, h3⟩ := mem_weakFindingsFrom_spec 0 entries w hw
    have hne := weakFindingsFrom_reasons_ne 0 entries w hw
    simp only [bne_iff_ne, ne_eq, decide_not]
    intro heq
    have hji : j = i := by omega
    rw [hji, hget] at hget'
    have he : e' = e := (Option.some.inj hget').symm
    rw [h3, he, hre] at hne
    exact hne rfl

/-- Witness for C4's no-finding clause: a strong password at index 0 leaves
no finding with index 0. -/
theorem classifier_exact_reasons_witness :
    ((analyze [⟨"a", "b", "Str0ng!Passw"⟩]).weakFindings.all (fun w => w.index != 0)) = true :=
  (classifier_exact_reasons "" [⟨"a", "b", "Str0ng!Passw"⟩]).2.1 0
    ⟨"a", "b", "Str0ng!Passw"⟩ rfl (by decide)

/-- `w` records, at its index, exactly the entry found there: same site and
username, and the classifier's reasons for that entry's password. -/
def findingMatches (entries : List Entry) (w : WeakFinding) : Bool :=
  match entries[w.index]? with
  | some e => w.site == e.site && w.username == e.username
      && decide (w.reasons = reasonsFor e.password)
  | none => false

/-- Claim C10: every weak finding's `index` is the zero-based position of its
entry in the input (site, username and reasons all match that entry), and the
findings are ordered by strictly ascending index — so there is at most one
finding per entry and input order is preserved. -/
theorem weakFindings_indexed (entries : List Entry) :
    ((analyze entries).weakFindings.map (fun w => w.index)).Pairwise (· < ·)
    ∧ ((analyze entries).weakFindings.all (findingMatches entries)) = true := by
  constructor
  · rw [List.pairwise_map]
    exact weakFindingsFrom_pairwise 0 entries
  · rw [List.all_eq_true]
    intro w hw
    obtain ⟨j, e, hj, hget, h1, h2, h3⟩ := mem_weakFindingsFrom_spec 0 entries w hw
    have hidx : w.index = j := by omega
    simp [findingMatches, hidx, hget, h1, h2, h3]

/-- Claim C7 (code bug): the UI documents `minLength` as ranging over 6–64
with default 12, and the spec requires the projector to clamp or default an
out-of-range or non-numeric value; the handler defaults only the empty
input and passes a typed out-of-range number (here 999) unchanged into the
length comparison of `adjustWeakReasons`. -/
theorem minLength_not_clamped :
    minLengthFromInput none = 12
    ∧ minLengthFromInput (some 999) = 999
    ∧ ¬ ((6 ≤ minLengthFromInput (some 999) ∧ minLengthFromInput (some 999) ≤ 64)
          ∨ minLengthFromInput (some 999) = 12)
    ∧ adjustWeakReasons ["No uppercase"] (some "aaaaaaaaaa") (minLengthFromInput (some 999))
        = ["Length < 999", "No uppercase"] :=
  ⟨rfl, rfl, by decide, by decide⟩

/-- The lookup value claim C2 predicts for an entry, written from the spec's
words: the baseline reasons with length-rule reasons stripped, a live length
reason prepended when the password is nonempty and shorter than the live
threshold, and the key dropped when the resulting list is empty. -/
def claimedAdjusted (e : Entry) (minLength : Nat) : Option (List String) :=
  let stripped := (reasonsFor e.password).filter (fun r => !isLengthReason r)
  let rs := if 0 < e.password.length ∧ e.password.length < minLength then
      ("Length < " ++ toString minLength) :: stripped else stripped
  if rs.isEmpty then none else some rs

/-- Counterexample to C2 as stated: a baseline-strong password of length 12
(no weak finding exists) under a live `minLength` of 20. The claim's formula
produces `some ["Length < 20"]`, but the lookup is built only from weak
findings and does not contain the entry's key at all. -/
theorem weakAdjusted_claim_cex :
    ¬ (getKey (weakAdjustedByKey [⟨"s", "u", "Abcdefgh1!xy"⟩]
          (analyze [⟨"s", "u", "Abcdefgh1!xy"⟩]) 20) (keyOf "s" "u")
        = claimedAdjusted ⟨"s", "u", "Abcdefgh1!xy"⟩ 20) := by decide

/-- The key of a weak finding is the key of one of the entries. -/
theorem finding_key_mem :
    ∀ (s : Nat) (entries : List Entry) (w : WeakFinding), w ∈ weakFindingsFrom s entries →
      keyOf w.site w.username ∈ entries.map (fun x => keyOf x.site x.username) := by
  intro s entries w hw
  obtain ⟨i, e, _, hget, h1, h2, _⟩ := mem_weakFindingsFrom_spec s entries w hw
  rw [h1, h2]
  exact List.mem_map_of_mem _ (List.getElem?_mem hget)

/-- With pairwise-distinct entry keys, the weak findings keyed like a member
entry `e` (whose baseline reasons are nonempty) are exactly `e`'s finding. -/
theorem findings_key_filter (e : Entry) :
    ∀ (s : Nat) (entries : List Entry), e ∈ entries →
      (entries.map (fun x => keyOf x.site x.username)).Nodup →
      reasonsFor e.password ≠ [] →
      ∃ i, (weakFindingsFrom s entries).filter
          (fun w => keyOf w.site w.username == keyOf e.site e.username)
        = [⟨i, e.site, e.username, reasonsFor e.password⟩]
  | _, [], he, _, _ => absurd he (List.not_mem_nil e)
  | s, a :: tl, he, hnd, hw => by
    rw [List.map_cons, List.nodup_cons] at hnd
    obtain ⟨hna, hndtl⟩ := hnd
    rcases List.mem_cons.mp he with he | he
    · subst he
      have hne : ¬ (reasonsFor e.password).isEmpty = true := by
        simpa [List.isEmpty_iff] using hw
      refine ⟨s, ?_⟩
      simp only [weakFindingsFrom, if_neg hne]
      rw [List.filter_cons]
      have htl : (weakFindingsFrom (s + 1) tl).filter
          (fun w => keyOf w.site w.username == keyOf e.site e.username) = [] := by
        rw [List.filter_eq_nil_iff]
        intro w hwmem hbeq
        exact hna ((by simpa using hbeq : keyOf w.site w.username = keyOf e.site e.username) ▸
          finding_key_mem (s + 1) tl w hwmem)
      simp [htl]
    · have hke : keyOf e.site e.username ∈ tl.map (fun x => keyOf x.site x.username) :=
        List.mem_map_of_mem _ he
      have hka : ¬ (keyOf a.site a.username == keyOf e.site e.username) = true := by
        intro hbeq
        exact hna ((by simpa using hbeq : keyOf a.site a.username = keyOf e.site e.username) ▸ hke)
      obtain ⟨i, hi⟩ := findings_key_filter e (s + 1) tl he hndtl hw
      refine ⟨i, ?_⟩
      simp only [weakFindingsFrom]
      by_cases hra : (reasonsFor a.password).isEmpty = true
      · rw [if_pos hra, hi]
      · rw [if_neg hra, List.filter_cons]
        simp only [hka, if_neg]
        simpa using hi

/-- Claim C2 (amended): for every entry that HAS a baseline weak finding —
and under the spec's §3 assumption that `(site, username)` keys are unique —
the policy-adjusted lookup maps the entry's key to its baseline reasons with
length-rule reasons stripped and, when the password is nonempty and shorter
than the live `minLength`, a live-threshold length reason prepended; the key
is dropped when the resulting list is empty. (Entries with no baseline
finding never appear in the lookup, even when shorter than the live
threshold; see the counterexample.) -/
theorem weakAdjusted_lookup (entries : List Entry) (minLength : Nat) (e : Entry)
    (he : e ∈ entries)
    (hnd : (entries.map (fun x => keyOf x.site x.username)).Nodup)
    (hw : reasonsFor e.password ≠ []) :
    getKey (weakAdjustedByKey entries (analyze entries) minLength)
        (keyOf e.site e.username) = claimedAdjusted e minLength := by
  have hpw : getKey (passwordByKey entries) (keyOf e.site e.username) = some e.password := by
    rw [getKey_passwordByKey,
      filter_key_of_nodup (fun x => keyOf x.site x.username) entries e he hnd]
    rfl
  rw [getKey_weakAdjustedByKey]
  have hsplit : (analyze entries).weakFindings.filter
        (fun w => !(adjustOf entries minLength w).isEmpty &&
          (keyOf w.site w.username == keyOf e.site e.username))
      = List.filter (fun w => !(adjustOf entries minLength w).isEmpty)
          ((analyze entries).weakFindings.filter
            (fun w => keyOf w.site w.username == keyOf e.site e.username)) :=
    (List.filter_filter _ _).symm
  obtain ⟨i, hfk⟩ := findings_key_filter e 0 entries he hnd hw
  rw [hsplit, show (analyze entries).weakFindings = weakFindingsFrom 0 entries from rfl, hfk]
  have hadj : adjustOf entries minLength ⟨i, e.site, e.username, reasonsFor e.password⟩
      = adjustWeakReasons (reasonsFor e.password) (some e.password) minLength := by
    rw [adjustOf]
    rw [hpw]
  by_cases hB : (adjustWeakReasons (reasonsFor e.password) (some e.password) minLength).isEmpty
      = true
  · rw [List.filter_cons]
    simp only [hadj, hB, Bool.not_true, if_neg, List.filter_nil]
    simp only [claimedAdjusted, adjustWeakReasons] at hB ⊢
    simp_all
  · rw [List.filter_cons]
    simp only [hadj, hB, Bool.not_false, if_pos, List.filter_nil]
    simp only [claimedAdjusted, adjustWeakReasons] at hB ⊢
    simp_all
    rfl

/-- Witness for the amended C2: a ten-character all-lowercase password is
weak at baseline; under live `minLength = 8` its length reason disappears
while the character-class reasons survive unchanged. -/
theorem weakAdjusted_lookup_witness :
    getKey (weakAdjustedByKey [⟨"s", "u", "aaaaaaaaaa"⟩]
        (analyze [⟨"s", "u", "aaaaaaaaaa"⟩]) 8) (keyOf "s" "u")
      = claimedAdjusted ⟨"s", "u", "aaaaaaaaaa"⟩ 8 :=
  weakAdjusted_lookup [⟨"s", "u", "aaaaaaaaaa"⟩] 8 ⟨"s", "u", "aaaaaaaaaa"⟩
    (by decide) (by decide) (by decide)

/-- Claim C5: every emitted reuse group has `count = len(sites)` and at least
two members; the groups are sorted by descending count; and, band by band
(fixing any count value), the group sequence coincides with the spec-side
description `specReuseGroups` — one group per distinct (case-sensitive)
password value with ≥ 2 occurrences, members in first-seen order, equal-count
groups in first-seen (insertion) order. -/
theorem reuse_grouper_spec (entries : List Entry) :
    ((analyze entries).reuseGroups.all
        (fun g => decide (g.count = g.sites.length) && decide (2 ≤ g.count))) = true
    ∧ ((analyze entries).reuseGroups).Pairwise (fun a b => b.count ≤ a.count)
    ∧ ∀ c : Nat, (analyze entries).reuseGroups.filter (fun g => g.count == c)
        = (specReuseGroups entries).filter (fun g => g.count == c) := by
  have hrg : (analyze entries).reuseGroups
      = (rawReuseGroups entries).insertionSort (fun a b => groupCmp a b ≤ 0) := rfl
  refine ⟨?_, ?_, ?_⟩
  · rw [List.all_eq_true]
    intro g hg
    rw [hrg, List.mem_insertionSort, rawReuseGroups, List.mem_filterMap] at hg
    obtain ⟨kv, _, hsome⟩ := hg
    by_cases h2 : 2 ≤ kv.2.length
    · rw [if_pos h2] at hsome
      obtain rfl := Option.some.inj hsome
      simp [h2]
    · rw [if_neg h2] at hsome
      exact absurd hsome (Option.noConfusion)
  · haveI : IsTotal ReuseGroup (fun a b => groupCmp a b ≤ 0) :=
      ⟨fun a b => by simp only [groupCmp]; omega⟩
    haveI : IsTrans ReuseGroup (fun a b => groupCmp a b ≤ 0) :=
      ⟨fun a b c h1 h2 => by simp only [groupCmp] at *; omega⟩
    have hs := List.sorted_insertionSort (fun a b => groupCmp a b ≤ 0) (rawReuseGroups entries)
    rw [hrg]
    exact hs.imp (fun h => by simp only [groupCmp] at h; omega)
  · intro c
    rw [hrg, insertionSort_filter_band _ _ _ (fun x y hx hy => by
      have hx' : x.count = c := by simpa using hx
      have hy' : y.count = c := by simpa using hy
      simp only [groupCmp, hx', hy']
      omega)]
    rw [rawReuseGroups_eq]

/-- The issue-mode predicate exactly as the claim words it: `reuseOnly` keeps
rows with reuse count ≥ 2, `weakOnly` keeps weak rows, `all` keeps all. -/
def issuePass (m : IssueMode) (r : ResultRow) : Bool :=
  match m with
  | .all => true
  | .reuse => decide (2 ≤ r.reuseCount)
  | .weak => r.isWeak

/-- With an empty search query, the projector's output is the stable sort of
the issue-filtered candidate rows. -/
theorem allResults_eq_sort_filter (entries : List Entry) (rows : List Row) (report : Report)
    (minLength : Nat) (issueMode : IssueMode) (sortMode : SortMode) :
    allResults entries rows report minLength issueMode sortMode "" =
      ((entries.map (candidateRow rows (reuseCountByKey report)
          (weakAdjustedByKey entries report minLength))).filter
        (issuePass issueMode)).insertionSort (fun a b => rowCmp sortMode a b ≤ 0) := by
  simp only [allResults]
  congr 1
  have hfun : (fun e : Entry =>
      let r := candidateRow rows (reuseCountByKey report)
        (weakAdjustedByKey entries report minLength) e
      if issueMode = IssueMode.reuse ∧ r.reuseCount < 2 then none
      else if issueMode = IssueMode.weak ∧ r.isWeak = false then none
      else if queryKeep rows "" e = false then none
      else some r)
      = (fun e : Entry =>
        if issuePass issueMode (candidateRow rows (reuseCountByKey report)
            (weakAdjustedByKey entries report minLength) e) then
          some (candidateRow rows (reuseCountByKey report)
            (weakAdjustedByKey entries report minLength) e)
        else none) := by
    funext e
    have hq : queryKeep rows "" e = true := rfl
    rcases issueMode with _ | _ | _
    · simp [issuePass, hq]
    · by_cases hrc : (candidateRow rows (reuseCountByKey report)
          (weakAdjustedByKey entries report minLength) e).reuseCount < 2
      · have h2 : ¬ 2 ≤ (candidateRow rows (reuseCountByKey report)
            (weakAdjustedByKey entries report minLength) e).reuseCount := by omega
        simp [issuePass, hrc, h2, hq]
      · have h2 : 2 ≤ (candidateRow rows (reuseCountByKey report)
            (weakAdjustedByKey entries report minLength) e).reuseCount := by omega
        simp [issuePass, hrc, h2, hq]
    · by_cases hwk : (candidateRow rows (reuseCountByKey report)
          (weakAdjustedByKey entries report minLength) e).isWeak
      · simp [issuePass, hwk, hq]
      · simp [issuePass, hwk, hq]
  rw [hfun, filterMap_guard, List.filter_map]
  rfl

/-- Claim C6: with an empty query, the displayed sequence keeps exactly the
candidate rows passing the issue-mode predicate (for every sort mode, as a
permutation); under `sortMode = risk` it is ordered by descending risk score
recomputed from each row's current `reuseCount`/`isWeak` (with equal-score
bands kept in candidate order); and the concrete scenario rows with
`(reuseCount, isWeak)` of `(5, false)`, `(0, true)`, `(1, false)` come out in
that order (scores 50, 15, 10). -/
theorem projector_filter_and_risk_sort :
    (∀ (entries : List Entry) (rows : List Row) (report : Report) (minLength : Nat)
        (issueMode : IssueMode) (sortMode : SortMode),
      (allResults entries rows report minLength issueMode sortMode "").Perm
        ((entries.map (candidateRow rows (reuseCountByKey report)
            (weakAdjustedByKey entries report minLength))).filter (issuePass issueMode))
      ∧ (allResults entries rows report minLength issueMode SortMode.risk "").Pairwise
          (fun a b => riskScore b.reuseCount b.isWeak ≤ riskScore a.reuseCount a.isWeak)
      ∧ ∀ s : Nat,
          (allResults entries rows report minLength issueMode SortMode.risk "").filter
              (fun r => riskScore r.reuseCount r.isWeak == s)
            = ((entries.map (candidateRow rows (reuseCountByKey report)
                (weakAdjustedByKey entries report minLength))).filter
                (issuePass issueMode)).filter (fun r => riskScore r.reuseCount r.isWeak == s))
    ∧ (allResults
        [⟨"a", "u1", "Aa1!aaaaaaaa"⟩, ⟨"b", "u2", "aaaaaaaaaaaa"⟩, ⟨"c", "u3", "Bb2@bbbbbbbb"⟩]
        []
        { summary := ⟨3, 1, 2, 6⟩
          weakFindings := [⟨1, "b", "u2", ["No uppercase", "No number", "No symbol"]⟩]
          reuseGroups := [⟨5, [⟨"a", "u1"⟩]⟩, ⟨1, [⟨"c", "u3"⟩]⟩] }
        12 IssueMode.all SortMode.risk "").map (fun r => (r.reuseCount, r.isWeak))
      = [(5, false), (0, true), (1, false)] := by
  constructor
  · intro entries rows report minLength issueMode sortMode
    refine ⟨?_, ?_, ?_⟩
    · rw [allResults_eq_sort_filter]
      exact List.perm_insertionSort _ _
    · rw [allResults_eq_sort_filter]
      haveI : IsTotal ResultRow (fun a b => rowCmp SortMode.risk a b ≤ 0) :=
        ⟨fun a b => by simp only [rowCmp]; omega⟩
      haveI : IsTrans ResultRow (fun a b => rowCmp SortMode.risk a b ≤ 0) :=
        ⟨fun a b c h1 h2 => by simp only [rowCmp] at *; omega⟩
      have hs := List.sorted_insertionSort (fun a b => rowCmp SortMode.risk a b ≤ 0)
        ((entries.map (candidateRow rows (reuseCountByKey report)
          (weakAdjustedByKey entries report minLength))).filter (issuePass issueMode))
      exact hs.imp (fun h => by simp only [rowCmp] at h; omega)
    · intro s
      rw [allResults_eq_sort_filter]
      exact insertionSort_filter_band _ _ _ (fun x y hx hy => by
        have hx' : riskScore x.reuseCount x.isWeak = s := by simpa using hx
        have hy' : riskScore y.reuseCount y.isWeak = s := by simpa using hy
        simp only [rowCmp, hx', hy']
        omega)
  · decide

end PwCheck
